import Mathlib

/-!
# UTXO pallet — shallow embedding

A shallow embedding of the `utxo` pallet (`src/pallets/utxo/src/lib.rs` and
`src/pallets/utxo/src/issuance.rs`): a UTXO ledger with transaction
validation (`validate_transaction`), application (`update_storage`), the
`spend` dispatchable, end-of-block reward dispersal (`disperse_reward`,
`on_finalize`), and the `HalvingIssuance` issuance policy.

Modelling conventions:
* `Value` (`u128`) becomes `Nat`; the `checked_add`/`checked_sub` operations
  carry the explicit `2^128` bound (`checkedAdd`), and the `u64` output index
  carries the `2^64` bound (`checkedAdd64`).
* `BlakeTwo256::hash_of` together with the SCALE encoding is idealised as an
  injective function: `H256` is an inductive type whose constructors record
  exactly the shapes that the pallet hashes (`hash_of(&output)` at genesis,
  `hash_of(&(&tx.encode(), index))` for output keys,
  `hash_of(&(&utxo, block_number))` for reward keys), plus `raw` values for
  arbitrary 256-bit strings such as foreign outpoints and public keys.
* `sr25519_verify` is an external primitive; validation is parameterised by an
  arbitrary boolean oracle `SigVerify` taking the signature, the message (the
  signature-stripped transaction, whose encoding is injectively determined by
  the stripped transaction itself) and the public key.
* The `UtxoStore` map is an association list with overwrite-on-insert, and the
  pallet state is the pair of the store and the `RewardTotal` accumulator.
-/

/- In the source `type Value = u128`; values are modelled directly as `Nat`,
with all arithmetic the pallet performs on them overflow-checked at `2^128`. -/

/-- `u128::checked_add`. -/
def checkedAdd (a b : Nat) : Option Nat :=
  if a + b < 2 ^ 128 then some (a + b) else none

/-- `u64::checked_add` (used for the output index). -/
def checkedAdd64 (a b : Nat) : Option Nat :=
  if a + b < 2 ^ 64 then some (a + b) else none

/-- `u128::checked_sub`. -/
def checkedSub (a b : Nat) : Option Nat :=
  if b ≤ a then some (a - b) else none

mutual
/-- 256-bit hashes, idealised as the free collision-free hash over the shapes
the pallet feeds to `BlakeTwo256::hash_of`.  `raw n` stands for an arbitrary
256-bit string (used for foreign outpoints and public keys);
`hashOutput v pk` is `hash_of(&output)` (genesis keys);
`hashTxIndex ins outs idx` is `hash_of(&(&tx.encode(), index))`, where the
SCALE encoding of `tx` is injectively determined by its list of inputs
(outpoint and sigscript pairs, as `InL`) and its list of outputs (value and
pubkey pairs, as `OutL`);
`hashOutputBlock v pk block` is `hash_of(&(&utxo, block_number))`. -/
inductive H256 : Type where
  | raw (n : Nat)
  | hashOutput (value : Nat) (pubkey : H256)
  | hashTxIndex (inputs : InL) (outputs : OutL) (idx : Nat)
  | hashOutputBlock (value : Nat) (pubkey : H256) (block : Nat)

/-- The encoded input list of a transaction: each entry is an outpoint
(`H256`) together with a sigscript (an opaque 512-bit string, as `Nat`). -/
inductive InL : Type where
  | nil
  | cons (outpoint : H256) (sigscript : Nat) (rest : InL)

/-- The encoded output list of a transaction: each entry is a value together
with a pubkey. -/
inductive OutL : Type where
  | nil
  | cons (value : Nat) (pubkey : H256) (rest : OutL)
end

deriving instance DecidableEq for H256
deriving instance DecidableEq for InL
deriving instance DecidableEq for OutL

mutual
/-- Nesting depth of an idealised hash; a hash built from a piece of data is
strictly deeper than every hash occurring inside that data. -/
def H256.depth : H256 → Nat
  | .raw _ => 0
  | .hashOutput _ pk => pk.depth + 1
  | .hashTxIndex ins outs _ => max ins.depth outs.depth + 1
  | .hashOutputBlock _ pk _ => pk.depth + 1

/-- Depth of an encoded input list: one more than the deepest outpoint. -/
def InL.depth : InL → Nat
  | .nil => 0
  | .cons o _ rest => max (o.depth + 1) rest.depth

/-- Depth of an encoded output list: one more than the deepest pubkey. -/
def OutL.depth : OutL → Nat
  | .nil => 0
  | .cons _ pk rest => max (pk.depth + 1) rest.depth
end

/-- `TransactionInput { outpoint: H256, sigscript: H512 }`; the sigscript is an
opaque 512-bit string, modelled as a natural number (`0` is `H512::zero()`). -/
structure TransactionInput where
  outpoint : H256
  sigscript : Nat
deriving DecidableEq

/-- `TransactionOutput { value: Value, pubkey: H256 }`. -/
structure TransactionOutput where
  value : Nat
  pubkey : H256
deriving DecidableEq

/-- `Transaction { inputs: Vec<TransactionInput>, outputs: Vec<TransactionOutput> }`. -/
structure Transaction where
  inputs : List TransactionInput
  outputs : List TransactionOutput
deriving DecidableEq

/-- The input list as it appears inside the transaction encoding. -/
def encodeInputs : List TransactionInput → InL
  | [] => .nil
  | i :: rest => .cons i.outpoint i.sigscript (encodeInputs rest)

/-- The output list as it appears inside the transaction encoding. -/
def encodeOutputs : List TransactionOutput → OutL
  | [] => .nil
  | o :: rest => .cons o.value o.pubkey (encodeOutputs rest)

/-- The ledger key of output number `idx` of `tx`:
`BlakeTwo256::hash_of(&(&tx.encode(), index))` (the full encoding, sigscripts
included), as computed in both `validate_transaction` and `update_storage`. -/
def txOutputKey (tx : Transaction) (idx : Nat) : H256 :=
  .hashTxIndex (encodeInputs tx.inputs) (encodeOutputs tx.outputs) idx

/-- The `UtxoStore` map (`H256 => Option<TransactionOutput>`), modelled as an
association list. -/
abbrev Store := List (H256 × TransactionOutput)

/-- `UtxoStore::get`. -/
def Store.get (s : Store) (k : H256) : Option TransactionOutput :=
  (s.find? fun p => p.1 = k).map Prod.snd

/-- `UtxoStore::contains_key`. -/
def Store.containsKey (s : Store) (k : H256) : Bool :=
  (s.get k).isSome

/-- `UtxoStore::remove`. -/
def Store.remove (s : Store) (k : H256) : Store :=
  s.filter fun p => p.1 ≠ k

/-- `UtxoStore::insert` (overwrites any entry already stored at the key). -/
def Store.insert (s : Store) (k : H256) (v : TransactionOutput) : Store :=
  (k, v) :: s.remove k

/-- Number of entries of the store. -/
def Store.size (s : Store) : Nat :=
  s.length

/-- Number of distinct elements of a list: the cardinality of the `BTreeMap`
built from the list's elements as keys (`input_set.len()` /
`output_set.len()` in `validate_transaction`). -/
def distinctLen {α : Type} [DecidableEq α] (l : List α) : Nat :=
  l.dedup.length

/-- The pallet's storage: the `UtxoStore` map and the `RewardTotal` value. -/
structure State where
  utxo : Store
  rewardTotal : Nat
deriving DecidableEq

/-- The pallet's events. -/
inductive Event : Type where
  | TransactionSuccess (tx : Transaction)
  | RewardsIssued (amount : Nat) (key : H256)
  | RewardsWasted
deriving DecidableEq

/-- The external `sp_io::crypto::sr25519_verify` primitive, abstracted as an
oracle taking the sigscript, the message (the signature-stripped transaction,
whose byte encoding it injectively determines) and the pubkey. -/
abbrev SigVerify := Nat → Transaction → H256 → Bool

/-- `get_simple_tx`: the transaction with every input's sigscript replaced by
`H512::zero()`; its encoding is the message that must have been signed. -/
def get_simple_tx (tx : Transaction) : Transaction :=
  { inputs := tx.inputs.map fun i => { i with sigscript := 0 }
    outputs := tx.outputs }

/-- The input loop of `validate_transaction`: for each input, look its
outpoint up in the store; if present, check the signature and accumulate the
referenced value with `checked_add`; if absent, silently skip the input. -/
def totalInputLoop (verify : SigVerify) (store : Store) (msg : Transaction) :
    List TransactionInput → Nat → Except String Nat
  | [], acc => .ok acc
  | input :: rest, acc =>
    match store.get input.outpoint with
    | some input_utxo =>
      if verify input.sigscript msg input_utxo.pubkey then
        match checkedAdd acc input_utxo.value with
        | some acc2 => totalInputLoop verify store msg rest acc2
        | none => .error "input value overflow"
      else
        .error "Signature must be valid"
    | none => totalInputLoop verify store msg rest acc

/-- The output loop of `validate_transaction`: for each output, require a
nonzero value, derive its ledger key, step the `u64` index with `checked_add`,
require the key to be fresh, and accumulate the value with `checked_add`. -/
def totalOutputLoop (store : Store) (tx : Transaction) :
    List TransactionOutput → Nat → Nat → Except String Nat
  | [], _, acc => .ok acc
  | output :: rest, idx, acc =>
    if output.value > 0 then
      match checkedAdd64 idx 1 with
      | some idx2 =>
        if store.containsKey (txOutputKey tx idx) then
          .error "output already exists"
        else
          match checkedAdd acc output.value with
          | some acc2 => totalOutputLoop store tx rest idx2 acc2
          | none => .error "output value overflow"
      | none => .error "output index overflow"
    else
      .error "output valud must be nonzero"

/-- `Module::validate_transaction`. -/
def validate_transaction (verify : SigVerify) (store : Store) (tx : Transaction) :
    Except String Nat :=
  if tx.inputs.isEmpty then .error "no inputs"
  else if tx.outputs.isEmpty then .error "no outputs"
  else if distinctLen tx.inputs ≠ tx.inputs.length then
    .error "Each input must be used once"
  else if distinctLen tx.outputs ≠ tx.outputs.length then
    .error "Each output must be defined only once"
  else
    match totalInputLoop verify store (get_simple_tx tx) tx.inputs 0 with
    | .error e => .error e
    | .ok total_input =>
      match totalOutputLoop store tx tx.outputs 0 0 with
      | .error e => .error e
      | .ok total_output =>
        if total_input ≥ total_output then
          match checkedSub total_input total_output with
          | some reward => .ok reward
          | none => .error "output index overflow"
        else
          .error "output value must not exceed the input value"

/-- The output loop of `update_storage`: derive each output's key (exactly as
in validation), step the `u64` index with `checked_add`, and insert. -/
def insertLoop (tx : Transaction) :
    List TransactionOutput → Nat → Store → Except String Store
  | [], _, st => .ok st
  | output :: rest, idx, st =>
    match checkedAdd64 idx 1 with
    | some idx2 => insertLoop tx rest idx2 (st.insert (txOutputKey tx idx) output)
    | none => .error "output index overflow"

/-- `Module::update_storage`: add the fee to `RewardTotal` with `checked_add`,
remove every input's outpoint, and insert every output under its derived key. -/
def update_storage (s : State) (tx : Transaction) (reward : Nat) :
    Except String State :=
  match checkedAdd s.rewardTotal reward with
  | none => .error "reward overflow"
  | some new_total =>
    let removed := tx.inputs.foldl (fun st input => st.remove input.outpoint) s.utxo
    match insertLoop tx tx.outputs 0 removed with
    | .ok st2 => .ok { utxo := st2, rewardTotal := new_total }
    | .error e => .error e

/-- The `spend` dispatchable: validate, apply, emit `TransactionSuccess`. -/
def spend (verify : SigVerify) (s : State) (tx : Transaction) :
    Except String (State × Event) :=
  match validate_transaction verify s.utxo tx with
  | .error e => .error e
  | .ok reward =>
    match update_storage s tx reward with
    | .error e => .error e
    | .ok s2 => .ok (s2, .TransactionSuccess tx)

/-- `Module::disperse_reward`: take the whole `RewardTotal` (resetting it to
zero), build an output paying it to the author, key it by
`hash_of(&(&utxo, block_number))`, insert it, and emit `RewardsIssued`. -/
def disperse_reward (s : State) (author : H256) (block : Nat) : State × Event :=
  let reward := s.rewardTotal
  let utxo : TransactionOutput := { value := reward, pubkey := author }
  let hash := H256.hashOutputBlock reward author block
  ({ utxo := s.utxo.insert hash utxo, rewardTotal := 0 }, .RewardsIssued reward hash)

/-- `on_finalize`: if no author is resolvable emit `RewardsWasted` and leave
the state untouched, otherwise disperse the reward to the author. -/
def on_finalize (s : State) (authorQ : Option H256) (block : Nat) : State × Event :=
  match authorQ with
  | none => (s, .RewardsWasted)
  | some author => disperse_reward s author block

/-- `HalvingIssuance::issuance`: `INITIAL_ISSUANCE = 50` halved every
`HALVING_EVERY_BLOCKS = 210_000` blocks, with a guard forcing zero only from
`halvings ≥ 64` on.  `INITIAL_ISSUANCE` is a `u32`, so for `halvings` in
`[32, 63]` the shift amount exceeds the 32-bit width: a release build wraps
the amount at the width (`halvings % 32`), which is what this definition
computes; a build with overflow checks panics there instead. -/
def HalvingIssuance.issuance (block : Nat) : Nat :=
  let halvings := block / 210000
  if halvings ≥ 64 then 0
  else (50 : Nat) >>> (halvings % 32)

/-- The null issuance policy (`impl Issuance for ()`). -/
def unitIssuance (_block : Nat) : Nat := 0

/-- The genesis build of `UtxoStore`: each configured output is stored under
`BlakeTwo256::hash_of(&u)`. -/
def genesisStore (genesis_utxos : List TransactionOutput) : Store :=
  genesis_utxos.foldl (fun st u => st.insert (H256.hashOutput u.value u.pubkey) u) []

/-- The genesis state: the seeded store and a zero `RewardTotal`. -/
def genesisState (genesis_utxos : List TransactionOutput) : State :=
  { utxo := genesisStore genesis_utxos, rewardTotal := 0 }

/-- States reachable from some genesis configuration by `spend` extrinsics and
end-of-block finalisation. -/
inductive Reachable (verify : SigVerify) : State → Prop where
  | genesis (genesis_utxos : List TransactionOutput) :
      Reachable verify (genesisState genesis_utxos)
  | spend_step {s s2 : State} {tx : Transaction} {ev : Event} :
      Reachable verify s → spend verify s tx = .ok (s2, ev) → Reachable verify s2
  | finalize_step {s s2 : State} {authorQ : Option H256} {block : Nat} {ev : Event} :
      Reachable verify s → on_finalize s authorQ block = (s2, ev) → Reachable verify s2

/-! ## Helper lemmas and concrete fixtures -/

deriving instance DecidableEq for Except

/-- A signature oracle that accepts everything (used for concrete runs). -/
def vTrue : SigVerify := fun _ _ _ => true

/-- A duplicated input used by the duplicate-input fixtures. -/
def dupInput : TransactionInput := { outpoint := .raw 0, sigscript := 0 }

/-- C3 fixture: a store holding one UTXO of value 5. -/
def c3store : Store := [(H256.raw 0, { value := 5, pubkey := .raw 7 })]

/-- C3 fixture: a transaction spending that UTXO through two inputs with the
same outpoint and different sigscripts. -/
def c3tx : Transaction :=
  { inputs := [{ outpoint := .raw 0, sigscript := 1 }, { outpoint := .raw 0, sigscript := 2 }]
    outputs := [{ value := 10, pubkey := .raw 8 }] }

/-- C4 fixture: a store holding one UTXO of value 100 under key `raw 1`. -/
def c4store : Store := [(H256.raw 1, { value := 100, pubkey := .raw 7 })]

/-- C4 fixture: a transaction whose second input's outpoint (`raw 2`) is
absent from `c4store`. -/
def c4tx : Transaction :=
  { inputs := [{ outpoint := .raw 1, sigscript := 0 }, { outpoint := .raw 2, sigscript := 0 }]
    outputs := [{ value := 50, pubkey := .raw 8 }] }

/-- C1 fixture: a state with 7 accumulated fee units. -/
def c1state : State := { utxo := [], rewardTotal := 7 }

/-- The pure result of the `update_storage` output loop. -/
def insertAll (tx : Transaction) : List TransactionOutput → Nat → Store → Store
  | [], _, st => st
  | o :: rest, idx, st => insertAll tx rest (idx + 1) (st.insert (txOutputKey tx idx) o)

/-- Number of store entries whose key is referenced by some input of the
transaction (the entries that application actually removes). -/
def presentCount (s : Store) (tx : Transaction) : Nat :=
  (s.filter fun p => tx.inputs.any fun i => i.outpoint = p.1).length

/-- C6 witness fixture: the state after applying `c4tx` to `c4store`. -/
def c6state2 : State :=
  { utxo := [(H256.hashTxIndex (.cons (.raw 1) 0 (.cons (.raw 2) 0 .nil))
        (.cons 50 (.raw 8) .nil) 0,
      { value := 50, pubkey := .raw 8 })]
    rewardTotal := 50 }

/-- States reachable when, additionally, every seeded genesis output has
nonzero value and every reward dispersal happens with a nonzero accumulated
reward (the restriction the counterexample forces on the claimed
invariant). -/
inductive ReachableNZ (verify : SigVerify) : State → Prop where
  | genesis (genesis_utxos : List TransactionOutput)
      (hpos : ∀ u ∈ genesis_utxos, 0 < u.value) :
      ReachableNZ verify (genesisState genesis_utxos)
  | spend_step {s s2 : State} {tx : Transaction} {ev : Event} :
      ReachableNZ verify s → spend verify s tx = .ok (s2, ev) → ReachableNZ verify s2
  | finalize_none {s s2 : State} {block : Nat} {ev : Event} :
      ReachableNZ verify s → on_finalize s none block = (s2, ev) → ReachableNZ verify s2
  | finalize_author {s s2 : State} {author : H256} {block : Nat} {ev : Event} :
      ReachableNZ verify s → 0 < s.rewardTotal →
      on_finalize s (some author) block = (s2, ev) → ReachableNZ verify s2

/-- C10 counterexample fixture: the state after finalizing one authored block
over a genesis holding a single output of value 1, with no accumulated fees. -/
def c10state : State :=
  { utxo := [(H256.hashOutputBlock 0 (.raw 1) 0, { value := 0, pubkey := .raw 1 }),
      (H256.hashOutput 1 (.raw 0), { value := 1, pubkey := .raw 0 })]
    rewardTotal := 0 }

/-- The `BTreeMap` cardinality check accepts a list exactly when the list has
no duplicates. -/
theorem distinctLen_eq_length_iff {α : Type} [DecidableEq α] (l : List α) :
    distinctLen l = l.length ↔ l.Nodup := by
  constructor
  · intro h
    have hsub : l.dedup.Sublist l := l.dedup_sublist
    have hself : l.dedup = l := hsub.eq_of_length h
    rw [← hself]
    exact l.nodup_dedup
  · intro h
    rw [distinctLen, h.dedup]

/-- C2: the `u32` subsidy schedule diverges from the claimed
`50 >> (h / 210000)` (which is 0 from halvings = 6 on): the scenario values at
heights 209,999 and 210,000 do hold and the subsidy is 0 by height 1,260,000,
but at height 6,720,000 (halvings = 32) the wrapped `u32` shift brings the
subsidy back to 50, and at 6,930,000 to 25, until the guard zeroes it from
height 13,440,000 on — and a build with overflow checks panics on those
heights instead, so the policy is not total either. -/
theorem halving_issuance_u32_divergence :
    HalvingIssuance.issuance 209999 = 50 ∧
    HalvingIssuance.issuance 210000 = 25 ∧
    HalvingIssuance.issuance 1260000 = 0 ∧
    HalvingIssuance.issuance 6720000 = 50 ∧
    HalvingIssuance.issuance 6930000 = 25 ∧
    HalvingIssuance.issuance (64 * 210000) = 0 := by
  decide

/-- C9: a transaction that fails validation produces no state transition: the
`spend` dispatchable surfaces the validation error and yields no new state, so
the `UtxoStore` and `RewardTotal` the caller holds are exactly as they were.
(In this embedding `validate_transaction` is a function of the store that
returns only a verdict, so validation itself can mutate nothing, succeeding or
failing.) -/
theorem validation_error_leaves_state_unchanged (verify : SigVerify) (s : State)
    (tx : Transaction) (e : String)
    (h : validate_transaction verify s.utxo tx = .error e) :
    spend verify s tx = .error e := by
  unfold spend
  rw [h]

/-- C9 witness: a concrete failing spend. -/
theorem validation_error_leaves_state_unchanged_witness :
    spend vTrue { utxo := [], rewardTotal := 0 } { inputs := [], outputs := [] } =
      .error "no inputs" :=
  validation_error_leaves_state_unchanged vTrue
    { utxo := [], rewardTotal := 0 } { inputs := [], outputs := [] } "no inputs" (by rfl)

/-- C8 counterexample: a transaction with two identical inputs and an empty
output list is rejected by the emptiness check, not with the duplicate-input
error, so "always rejected with a duplicate-input error regardless of the rest
of the transaction's content" fails as stated. -/
theorem dup_inputs_empty_outputs_other_error :
    validate_transaction vTrue [] { inputs := [dupInput, dupInput], outputs := [] } =
      .error "no outputs" ∧
    validate_transaction vTrue [] { inputs := [dupInput, dupInput], outputs := [] } ≠
      .error "Each input must be used once" := by
  decide

/-- C8 amended: a transaction with a duplicated input (equal outpoint and equal
sigscript) and a nonempty output list is rejected with the duplicate-input
error, for every store and every signature oracle — so no signature
verification is attempted; with an empty output list it is rejected earlier by
the emptiness check. -/
theorem dup_inputs_rejected_before_sig_check (verify : SigVerify) (store : Store)
    (tx : Transaction) (hdup : ¬ tx.inputs.Nodup) (hout : tx.outputs ≠ []) :
    validate_transaction verify store tx = .error "Each input must be used once" := by
  have hin : tx.inputs ≠ [] := by
    intro hnil
    exact hdup (hnil ▸ List.nodup_nil)
  unfold validate_transaction
  rw [if_neg (by simp [List.isEmpty_iff, hin]), if_neg (by simp [List.isEmpty_iff, hout]),
    if_pos (fun hlen => hdup ((distinctLen_eq_length_iff _).mp hlen))]

/-- C8 witness: a concrete duplicate-input rejection. -/
theorem dup_inputs_rejected_before_sig_check_witness :
    validate_transaction vTrue []
      { inputs := [dupInput, dupInput], outputs := [{ value := 1, pubkey := .raw 1 }] } =
      .error "Each input must be used once" :=
  dup_inputs_rejected_before_sig_check vTrue []
    { inputs := [dupInput, dupInput], outputs := [{ value := 1, pubkey := .raw 1 }] }
    (by decide) (by decide)

/-- C3: two inputs referencing the same outpoint but carrying different
sigscripts survive the duplicate-input check (inputs are compared by full
(outpoint, sigscript) equality), and when the outpoint is stored and both
signatures verify, the referenced value is accumulated once per input — the
same stored UTXO is counted twice in `total_input`. -/
theorem duplicate_outpoint_value_counted_twice (verify : SigVerify) (store : Store)
    (p : H256) (s1 s2 : Nat) (u : TransactionOutput) (tx : Transaction)
    (htx : tx.inputs = [{ outpoint := p, sigscript := s1 }, { outpoint := p, sigscript := s2 }])
    (hne : s1 ≠ s2) (hget : store.get p = some u)
    (hv1 : verify s1 (get_simple_tx tx) u.pubkey = true)
    (hv2 : verify s2 (get_simple_tx tx) u.pubkey = true)
    (hov : u.value + u.value < 2 ^ 128) :
    distinctLen tx.inputs = tx.inputs.length ∧
    totalInputLoop verify store (get_simple_tx tx) tx.inputs 0 = .ok (u.value + u.value) := by
  have h1 : u.value < 2 ^ 128 := lt_of_le_of_lt (Nat.le_add_left _ _) hov
  constructor
  · rw [distinctLen_eq_length_iff, htx]
    simp [hne]
  · have e1 : checkedAdd 0 u.value = some u.value := by
      unfold checkedAdd
      rw [if_pos (show 0 + u.value < 2 ^ 128 by omega)]
      rw [Nat.zero_add]
    have e2 : checkedAdd u.value u.value = some (u.value + u.value) := by
      unfold checkedAdd
      rw [if_pos hov]
    rw [htx]
    simp [totalInputLoop, hget, hv1, hv2, e1, e2]

/-- C3 witness: the concrete double count. -/
theorem duplicate_outpoint_value_counted_twice_witness :
    distinctLen c3tx.inputs = c3tx.inputs.length ∧
    totalInputLoop vTrue c3store (get_simple_tx c3tx) c3tx.inputs 0 = .ok (5 + 5) :=
  duplicate_outpoint_value_counted_twice vTrue c3store (.raw 0) 1 2
    { value := 5, pubkey := .raw 7 } c3tx (by rfl) (by decide) (by rfl)
    (by rfl) (by rfl) (by decide)

/-- C4: an input whose outpoint is not in the store causes no error and
contributes nothing: the input loop gives the same result as on the
transaction with that input deleted; and validation of a concrete transaction
with such an input still returns `Ok` with a fee. -/
theorem missing_outpoint_silently_skipped :
    (∀ (verify : SigVerify) (store : Store) (msg : Transaction)
        (pre post : List TransactionInput) (i : TransactionInput) (acc : Nat),
        store.get i.outpoint = none →
        totalInputLoop verify store msg (pre ++ i :: post) acc =
          totalInputLoop verify store msg (pre ++ post) acc) ∧
    validate_transaction vTrue c4store c4tx = .ok 50 := by
  constructor
  · intro verify store msg pre post i acc hnone
    induction pre generalizing acc with
    | nil => simp [totalInputLoop, hnone]
    | cons a rest ih =>
      simp only [List.cons_append, totalInputLoop]
      cases hg : store.get a.outpoint with
      | none => exact ih acc
      | some u =>
        cases hv : verify a.sigscript msg u.pubkey with
        | false => simp [hv]
        | true =>
          cases hca : checkedAdd acc u.value with
          | none => simp [hv, hca]
          | some acc2 =>
            simp only [hv, hca, if_true]
            exact ih acc2
  · decide

/-- Inversion of a successful `u128::checked_add`. -/
theorem checkedAdd_some {a b c : Nat} (h : checkedAdd a b = some c) :
    c = a + b ∧ a + b < 2 ^ 128 := by
  unfold checkedAdd at h
  split at h
  next hlt =>
    refine ⟨?_, hlt⟩
    injection h with h2
    exact h2.symm
  next => simp at h

/-- Inversion of a successful `u64::checked_add`. -/
theorem checkedAdd64_some {a b c : Nat} (h : checkedAdd64 a b = some c) :
    c = a + b ∧ a + b < 2 ^ 64 := by
  unfold checkedAdd64 at h
  split at h
  next hlt =>
    refine ⟨?_, hlt⟩
    injection h with h2
    exact h2.symm
  next => simp at h

/-- Inversion of a successful validation: all structural checks passed and the
fee is the overflow-checked difference of the two loop totals. -/
theorem validate_ok_inv (verify : SigVerify) (store : Store) (tx : Transaction)
    (reward : Nat) (hok : validate_transaction verify store tx = .ok reward) :
    tx.inputs ≠ [] ∧ tx.outputs ≠ [] ∧
    distinctLen tx.inputs = tx.inputs.length ∧
    distinctLen tx.outputs = tx.outputs.length ∧
    ∃ tin tout, totalInputLoop verify store (get_simple_tx tx) tx.inputs 0 = .ok tin ∧
      totalOutputLoop store tx tx.outputs 0 0 = .ok tout ∧
      tout ≤ tin ∧ reward = tin - tout := by
  unfold validate_transaction at hok
  split at hok
  · simp at hok
  next h1 =>
    split at hok
    · simp at hok
    next h2 =>
      split at hok
      · simp at hok
      next h3 =>
        split at hok
        · simp at hok
        next h4 =>
          split at hok
          · simp at hok
          next tin heq =>
            split at hok
            · simp at hok
            next tout heq2 =>
              split at hok
              next hge =>
                unfold checkedSub at hok
                rw [if_pos hge] at hok
                have hrw : tin - tout = reward := by injection hok
                refine ⟨?_, ?_, not_not.mp h3, not_not.mp h4,
                  tin, tout, heq, heq2, hge, hrw.symm⟩
                · intro hnil
                  rw [hnil] at h1
                  exact h1 rfl
                · intro hnil
                  rw [hnil] at h2
                  exact h2 rfl
              next hlt => simp at hok

/-- C7: on every successful validation the returned fee is
`total_input - total_output` with `total_output ≤ total_input`, and whenever
the loops give `total_input < total_output` validation never succeeds. -/
theorem validation_fee_conservation :
    (∀ (verify : SigVerify) (store : Store) (tx : Transaction) (reward : Nat),
      validate_transaction verify store tx = .ok reward →
      ∃ tin tout, totalInputLoop verify store (get_simple_tx tx) tx.inputs 0 = .ok tin ∧
        totalOutputLoop store tx tx.outputs 0 0 = .ok tout ∧
        tout ≤ tin ∧ reward = tin - tout) ∧
    (∀ (verify : SigVerify) (store : Store) (tx : Transaction) (tin tout : Nat),
      totalInputLoop verify store (get_simple_tx tx) tx.inputs 0 = .ok tin →
      totalOutputLoop store tx tx.outputs 0 0 = .ok tout →
      tin < tout → ∀ reward, validate_transaction verify store tx ≠ .ok reward) := by
  have main : ∀ (verify : SigVerify) (store : Store) (tx : Transaction) (reward : Nat),
      validate_transaction verify store tx = .ok reward →
      ∃ tin tout, totalInputLoop verify store (get_simple_tx tx) tx.inputs 0 = .ok tin ∧
        totalOutputLoop store tx tx.outputs 0 0 = .ok tout ∧
        tout ≤ tin ∧ reward = tin - tout :=
    fun verify store tx reward hok => (validate_ok_inv verify store tx reward hok).2.2.2.2
  refine ⟨main, ?_⟩
  intro verify store tx tin tout h1 h2 hlt reward hok
  obtain ⟨tin2, tout2, g1, g2, hge, _⟩ := main verify store tx reward hok
  rw [g1] at h1
  rw [g2] at h2
  have e1 : tin2 = tin := by injection h1
  have e2 : tout2 = tout := by injection h2
  omega

/-! ## Store lemmas -/

/-- Reading back the key just inserted gives the inserted output. -/
theorem Store.get_insert_self (s : Store) (k : H256) (v : TransactionOutput) :
    (s.insert k v).get k = some v := by
  unfold Store.insert Store.get
  rw [List.find?_cons_of_pos _ (by simp)]
  rfl

/-- Looking up a key other than the removed one is unaffected by `remove`. -/
theorem Store.get_remove_ne (s : Store) (k k' : H256) (h : k' ≠ k) :
    (s.remove k).get k' = s.get k' := by
  induction s with
  | nil => rfl
  | cons p t ih =>
    by_cases hp : p.1 = k
    · have hne : ¬ p.1 = k' := by
        rw [hp]
        exact fun hh => h hh.symm
      unfold Store.remove Store.get at *
      rw [List.filter_cons_of_neg (by simp [hp]), List.find?_cons_of_neg _ (by simp [hne])]
      exact ih
    · unfold Store.remove Store.get at *
      rw [List.filter_cons_of_pos (by simp [hp])]
      by_cases hq : p.1 = k'
      · rw [List.find?_cons_of_pos _ (by simp [hq]), List.find?_cons_of_pos _ (by simp [hq])]
      · rw [List.find?_cons_of_neg _ (by simp [hq]), List.find?_cons_of_neg _ (by simp [hq])]
        exact ih

/-- The removed key is gone. -/
theorem Store.get_remove_self (s : Store) (k : H256) :
    (s.remove k).get k = none := by
  induction s with
  | nil => rfl
  | cons p t ih =>
    by_cases hp : p.1 = k
    · unfold Store.remove Store.get at *
      rw [List.filter_cons_of_neg (by simp [hp])]
      exact ih
    · unfold Store.remove Store.get at *
      rw [List.filter_cons_of_pos (by simp [hp]), List.find?_cons_of_neg _ (by simp [hp])]
      exact ih

/-- Looking up a key other than the inserted one is unaffected by `insert`. -/
theorem Store.get_insert_ne (s : Store) (k k' : H256) (v : TransactionOutput)
    (h : k' ≠ k) : (s.insert k v).get k' = s.get k' := by
  unfold Store.insert Store.get
  rw [List.find?_cons_of_neg _ (by simp [h.symm])]
  exact Store.get_remove_ne s k k' h

/-- C1 amended: when an author is resolvable, reward dispersal takes the whole
Reward Accumulator and resets it to zero, and inserts a new output whose value
is exactly the accumulated fees — the Issuance Policy is never consulted and
no subsidy is added — keyed by `hash_of(&(&utxo, block_number))`, leaving
every other key untouched, and emits `RewardsIssued` with that amount and
key. -/
theorem disperse_reward_pays_fees_only (s : State) (author : H256) (block : Nat) :
    (disperse_reward s author block).1.rewardTotal = 0 ∧
    (disperse_reward s author block).1.utxo.get
        (H256.hashOutputBlock s.rewardTotal author block) =
      some { value := s.rewardTotal, pubkey := author } ∧
    (disperse_reward s author block).2 =
      .RewardsIssued s.rewardTotal (H256.hashOutputBlock s.rewardTotal author block) ∧
    (∀ k, k ≠ H256.hashOutputBlock s.rewardTotal author block →
      (disperse_reward s author block).1.utxo.get k = s.utxo.get k) := by
  refine ⟨rfl, ?_, rfl, ?_⟩
  · exact Store.get_insert_self _ _ _
  · intro k hk
    exact Store.get_insert_ne _ _ _ _ hk

/-- C1 counterexample: at block height 0 the halving policy's subsidy is 50,
yet dispersing from an accumulator holding 7 inserts an output of value 7 and
emits `RewardsIssued 7` — not the claimed combined sum `7 + 50`. -/
theorem disperse_reward_adds_no_subsidy :
    (disperse_reward c1state (.raw 1) 0).1.utxo.get
        (H256.hashOutputBlock 7 (.raw 1) 0) = some { value := 7, pubkey := .raw 1 } ∧
    (disperse_reward c1state (.raw 1) 0).2 =
      .RewardsIssued 7 (H256.hashOutputBlock 7 (.raw 1) 0) ∧
    HalvingIssuance.issuance 0 = 50 ∧
    (7 : Nat) ≠ 7 + HalvingIssuance.issuance 0 := by
  refine ⟨by rfl, by rfl, by rfl, by decide⟩

/-! ## Loop lemmas -/

/-- What a successful output loop guarantees: every output value is positive,
every derived key in the processed index range is absent from the store, and
the `u64` index never overflowed. -/
theorem totalOutputLoop_ok_facts (store : Store) (tx : Transaction) :
    ∀ (outs : List TransactionOutput) (idx acc tout : Nat),
      totalOutputLoop store tx outs idx acc = .ok tout →
      (∀ o ∈ outs, 0 < o.value) ∧
      (∀ j, idx ≤ j → j < idx + outs.length → store.containsKey (txOutputKey tx j) = false) ∧
      (outs = [] ∨ idx + outs.length < 2 ^ 64) := by
  intro outs
  induction outs with
  | nil =>
    intro idx acc tout h
    refine ⟨by simp, ?_, Or.inl rfl⟩
    intro j hj1 hj2
    simp only [List.length_nil, Nat.add_zero] at hj2
    omega
  | cons o rest ih =>
    intro idx acc tout h
    unfold totalOutputLoop at h
    split at h
    next hpos =>
      split at h
      next idx2 hadd =>
        obtain ⟨hidx2, hbound⟩ := checkedAdd64_some hadd
        subst hidx2
        split at h
        next hck => simp at h
        next hck =>
          split at h
          next acc2 hacc =>
            obtain ⟨f1, f2, f3⟩ := ih (idx + 1) acc2 tout h
            refine ⟨?_, ?_, ?_⟩
            · intro x hx
              rcases List.mem_cons.mp hx with hx | hx
              · rw [hx]
                exact hpos
              · exact f1 x hx
            · intro j hj1 hj2
              by_cases hj : j = idx
              · rw [hj]
                simpa using hck
              · refine f2 j (by omega) ?_
                simp only [List.length_cons] at hj2
                omega
            · right
              simp only [List.length_cons]
              rcases f3 with f3 | f3
              · subst f3
                simpa using hbound
              · omega
          next hacc => simp at h
      next hadd => simp at h
    next hpos => simp at h

/-- When every input's outpoint is absent from the store, the input loop
silently skips them all and returns its accumulator. -/
theorem totalInputLoop_all_missing (verify : SigVerify) (store : Store) (msg : Transaction) :
    ∀ (inputs : List TransactionInput) (acc : Nat),
      (∀ i ∈ inputs, store.get i.outpoint = none) →
      totalInputLoop verify store msg inputs acc = .ok acc := by
  intro inputs
  induction inputs with
  | nil =>
    intro acc h
    rfl
  | cons a t ih =>
    intro acc h
    have ha := h a (by simp)
    unfold totalInputLoop
    rw [ha]
    exact ih acc fun i hi => h i (by simp [hi])

/-- As long as the `u64` index cannot overflow, `insertLoop` succeeds and
computes `insertAll`. -/
theorem insertLoop_eq_ok (tx : Transaction) :
    ∀ (outs : List TransactionOutput) (idx : Nat) (st : Store),
      (outs = [] ∨ idx + outs.length < 2 ^ 64) →
      insertLoop tx outs idx st = .ok (insertAll tx outs idx st) := by
  intro outs
  induction outs with
  | nil =>
    intro idx st h
    rfl
  | cons o rest ih =>
    intro idx st h
    have hb : idx + (o :: rest).length < 2 ^ 64 := by
      rcases h with h | h
      · exact absurd h (by simp)
      · exact h
    simp only [List.length_cons] at hb
    have hstep : checkedAdd64 idx 1 = some (idx + 1) := by
      unfold checkedAdd64
      rw [if_pos (show idx + 1 < 2 ^ 64 by omega)]
    simp only [insertLoop, insertAll, hstep]
    exact ih (idx + 1) _ (Or.inr (by omega))

/-! ## Key lemmas -/

/-- Output keys of one transaction are distinct across output indices. -/
theorem txOutputKey_idx_injective (tx : Transaction) {j j' : Nat}
    (h : txOutputKey tx j = txOutputKey tx j') : j = j' := by
  unfold txOutputKey at h
  injection h with h1 h2 h3

/-- Every outpoint occurring in a list of inputs is strictly shallower than
the encoded input list. -/
theorem depth_lt_of_mem_encodeInputs (l : List TransactionInput) (i : TransactionInput)
    (hmem : i ∈ l) : i.outpoint.depth < (encodeInputs l).depth := by
  induction l with
  | nil => cases hmem
  | cons a t ih =>
    rcases List.mem_cons.mp hmem with h | h
    · subst h
      simp only [encodeInputs, InL.depth]
      exact lt_of_lt_of_le (Nat.lt_succ_self _) (le_max_left _ _)
    · exact lt_of_lt_of_le (ih h) (by simp only [encodeInputs, InL.depth]; exact le_max_right _ _)

/-- No outpoint of a transaction's own inputs can equal one of the
transaction's derived output keys: the key hashes the whole transaction
encoding, which contains that outpoint. -/
theorem outpoint_ne_txOutputKey (tx : Transaction) (i : TransactionInput)
    (hmem : i ∈ tx.inputs) (j : Nat) : i.outpoint ≠ txOutputKey tx j := by
  intro heq
  have hd := depth_lt_of_mem_encodeInputs tx.inputs i hmem
  rw [heq] at hd
  have h2 : (encodeInputs tx.inputs).depth < (txOutputKey tx j).depth := by
    simp only [txOutputKey, H256.depth]
    exact Nat.lt_succ_of_le (le_max_left _ _)
  omega

/-! ## Removal and insertion lemmas -/

/-- Looking a key up after the input-removal fold: removed when it is one of
the outpoints, untouched otherwise. -/
theorem get_foldl_remove (inputs : List TransactionInput) :
    ∀ (s : Store) (k : H256),
      (inputs.foldl (fun st input => st.remove input.outpoint) s).get k =
        if inputs.any (fun i => i.outpoint = k) then none else s.get k := by
  induction inputs with
  | nil =>
    intro s k
    simp
  | cons a t ih =>
    intro s k
    simp only [List.foldl_cons, List.any_cons]
    rw [ih]
    by_cases hk : a.outpoint = k
    · by_cases ht : t.any (fun i => i.outpoint = k) = true
      · simp [hk, ht]
      · subst hk
        simp [ht, Store.get_remove_self]
    · rw [Store.get_remove_ne s a.outpoint k fun hh => hk hh.symm]
      simp [hk]

/-- The input-removal fold is a filter of the store. -/
theorem foldl_remove_eq_filter (inputs : List TransactionInput) :
    ∀ (s : Store),
      inputs.foldl (fun st input => st.remove input.outpoint) s =
        s.filter fun p => !(inputs.any fun i => i.outpoint = p.1) := by
  induction inputs with
  | nil =>
    intro s
    simp
  | cons a t ih =>
    intro s
    simp only [List.foldl_cons]
    rw [ih]
    unfold Store.remove
    rw [List.filter_filter]
    apply List.filter_congr
    intro x _
    by_cases hx : a.outpoint = x.1
    · simp [hx.symm]
    · have hx2 : ¬ x.1 = a.outpoint := fun hh => hx hh.symm
      simp [hx, hx2]

/-- Removing an absent key leaves the store untouched. -/
theorem Store.remove_of_not_contains (st : Store) (k : H256)
    (h : st.containsKey k = false) : st.remove k = st := by
  induction st with
  | nil => rfl
  | cons p t ih =>
    unfold Store.containsKey Store.get at h ih
    by_cases hp : p.1 = k
    · rw [List.find?_cons_of_pos _ (by simp [hp])] at h
      simp at h
    · rw [List.find?_cons_of_neg _ (by simp [hp])] at h
      unfold Store.remove at ih ⊢
      rw [List.filter_cons_of_pos (by simp [hp])]
      rw [ih h]

/-- Inserting under a fresh key grows the store by exactly one entry. -/
theorem Store.size_insert_of_not_contains (st : Store) (k : H256) (v : TransactionOutput)
    (h : st.containsKey k = false) : (st.insert k v).size = st.size + 1 := by
  unfold Store.insert Store.size
  rw [Store.remove_of_not_contains st k h]
  rfl

/-- Keys outside the inserted index range are untouched by the insertion
fold. -/
theorem get_insertAll_of_ne (tx : Transaction) :
    ∀ (outs : List TransactionOutput) (idx : Nat) (st : Store) (k : H256),
      (∀ j, idx ≤ j → j < idx + outs.length → k ≠ txOutputKey tx j) →
      (insertAll tx outs idx st).get k = st.get k := by
  intro outs
  induction outs with
  | nil =>
    intro idx st k h
    rfl
  | cons o rest ih =>
    intro idx st k h
    simp only [insertAll]
    rw [ih (idx + 1) _ k fun j hj1 hj2 =>
      h j (by omega) (by simp only [List.length_cons]; omega)]
    exact Store.get_insert_ne st _ k o (h idx (le_refl _) (by simp))

/-- Every key in the inserted index range is present after the insertion
fold. -/
theorem containsKey_insertAll (tx : Transaction) :
    ∀ (outs : List TransactionOutput) (idx : Nat) (st : Store) (j : Nat),
      idx ≤ j → j < idx + outs.length →
      (insertAll tx outs idx st).containsKey (txOutputKey tx j) = true := by
  intro outs
  induction outs with
  | nil =>
    intro idx st j h1 h2
    simp only [List.length_nil, Nat.add_zero] at h2
    omega
  | cons o rest ih =>
    intro idx st j h1 h2
    simp only [insertAll]
    by_cases hj : j = idx
    · subst hj
      unfold Store.containsKey
      rw [get_insertAll_of_ne tx rest (j + 1) _ (txOutputKey tx j)
        fun j2 hj1 hj2 heq => by
          have := txOutputKey_idx_injective tx heq
          omega]
      rw [Store.get_insert_self]
      rfl
    · refine ih (idx + 1) _ j (by omega) ?_
      simp only [List.length_cons] at h2
      omega

/-- With all inserted keys fresh, the insertion fold grows the store by
exactly the number of outputs. -/
theorem size_insertAll (tx : Transaction) :
    ∀ (outs : List TransactionOutput) (idx : Nat) (st : Store),
      (∀ j, idx ≤ j → j < idx + outs.length → st.containsKey (txOutputKey tx j) = false) →
      (insertAll tx outs idx st).size = st.size + outs.length := by
  intro outs
  induction outs with
  | nil =>
    intro idx st h
    rfl
  | cons o rest ih =>
    intro idx st h
    simp only [insertAll]
    have hfresh0 : st.containsKey (txOutputKey tx idx) = false :=
      h idx (le_refl _) (by simp)
    have hstep : ∀ j, idx + 1 ≤ j → j < (idx + 1) + rest.length →
        (st.insert (txOutputKey tx idx) o).containsKey (txOutputKey tx j) = false := by
      intro j hj1 hj2
      have hne : txOutputKey tx j ≠ txOutputKey tx idx := fun heq => by
        have := txOutputKey_idx_injective tx heq
        omega
      unfold Store.containsKey
      rw [Store.get_insert_ne st _ _ o hne]
      exact h j (by omega) (by simp only [List.length_cons]; omega)
    rw [ih (idx + 1) _ hstep]
    rw [Store.size_insert_of_not_contains st _ o hfresh0]
    simp only [List.length_cons]
    omega

/-- Everything readable after the insertion fold was either already readable
or is one of the inserted outputs. -/
theorem get_insertAll_inv (tx : Transaction) :
    ∀ (outs : List TransactionOutput) (idx : Nat) (st : Store) (k : H256)
      (v : TransactionOutput),
      (insertAll tx outs idx st).get k = some v →
      st.get k = some v ∨ v ∈ outs := by
  intro outs
  induction outs with
  | nil =>
    intro idx st k v h
    exact Or.inl h
  | cons o rest ih =>
    intro idx st k v h
    simp only [insertAll] at h
    rcases ih (idx + 1) _ k v h with h2 | h2
    · by_cases hk : k = txOutputKey tx idx
      · subst hk
        rw [Store.get_insert_self] at h2
        injection h2 with h3
        exact Or.inr (by simp [← h3])
      · rw [Store.get_insert_ne st _ k o hk] at h2
        exact Or.inl h2
    · exact Or.inr (by simp [h2])

/-- Everything readable in the genesis-seeded store is a configured genesis
output. -/
theorem get_genesis_fold_inv :
    ∀ (l : List TransactionOutput) (st : Store) (k : H256) (v : TransactionOutput),
      (l.foldl (fun st u => st.insert (H256.hashOutput u.value u.pubkey) u) st).get k = some v →
      st.get k = some v ∨ v ∈ l := by
  intro l
  induction l with
  | nil =>
    intro st k v h
    exact Or.inl h
  | cons u t ih =>
    intro st k v h
    simp only [List.foldl_cons] at h
    rcases ih _ k v h with h2 | h2
    · by_cases hk : k = H256.hashOutput u.value u.pubkey
      · subst hk
        rw [Store.get_insert_self] at h2
        injection h2 with h3
        exact Or.inr (by simp [← h3])
      · rw [Store.get_insert_ne _ _ _ _ hk] at h2
        exact Or.inl h2
    · exact Or.inr (by simp [h2])

/-- Inversion of a successful `update_storage`. -/
theorem update_storage_ok_inv (s : State) (tx : Transaction) (reward : Nat) (s2 : State)
    (h : update_storage s tx reward = .ok s2) :
    s.rewardTotal + reward < 2 ^ 128 ∧ s2.rewardTotal = s.rewardTotal + reward ∧
    insertLoop tx tx.outputs 0
      (tx.inputs.foldl (fun st input => st.remove input.outpoint) s.utxo) = .ok s2.utxo := by
  unfold update_storage at h
  split at h
  · simp at h
  next new_total hadd =>
    obtain ⟨hnt, hbound⟩ := checkedAdd_some hadd
    dsimp only at h
    split at h
    next st2 hil =>
      injection h with h2
      rw [← h2]
      exact ⟨hbound, hnt, hil⟩
    next e hil => simp at h

/-- Inversion of a successful `spend`. -/
theorem spend_ok_inv (verify : SigVerify) (s : State) (tx : Transaction) (s2 : State)
    (ev : Event) (h : spend verify s tx = .ok (s2, ev)) :
    ∃ reward, validate_transaction verify s.utxo tx = .ok reward ∧
      update_storage s tx reward = .ok s2 := by
  unfold spend at h
  split at h
  · simp at h
  next reward hval =>
    split at h
    · simp at h
    next s3 hupd =>
      injection h with h2
      have hs : s3 = s2 := congrArg Prod.fst h2
      exact ⟨reward, hval, hs ▸ hupd⟩

/-- An absent key reads back as `none`. -/
theorem Store.get_eq_none_of_not_contains (st : Store) (k : H256)
    (h : st.containsKey k = false) : st.get k = none := by
  unfold Store.containsKey at h
  cases hg : st.get k with
  | none => rfl
  | some v =>
    rw [hg] at h
    simp at h

/-- C5 amended: applying a validated transaction removes exactly the store
entries whose keys are input outpoints present in the store and adds exactly
`len(tx.outputs)` entries, so the entry count changes by
`len(tx.outputs) - presentCount`; the claimed `len(outputs) - len(inputs)`
holds only when all input outpoints are distinct and present. -/
theorem apply_store_size_change (verify : SigVerify) (s : State) (tx : Transaction)
    (reward : Nat) (s2 : State)
    (hok : validate_transaction verify s.utxo tx = .ok reward)
    (happ : update_storage s tx reward = .ok s2) :
    s2.utxo.size + presentCount s.utxo tx = s.utxo.size + tx.outputs.length := by
  obtain ⟨hin, hout, hd1, hd2, tin, tout, hl1, hl2, hge, hfee⟩ :=
    validate_ok_inv verify s.utxo tx reward hok
  obtain ⟨hvals, hfresh, hbound⟩ := totalOutputLoop_ok_facts s.utxo tx tx.outputs 0 0 tout hl2
  obtain ⟨hrb, hrt, hil⟩ := update_storage_ok_inv s tx reward s2 happ
  have hil2 := insertLoop_eq_ok tx tx.outputs 0
    (tx.inputs.foldl (fun st input => st.remove input.outpoint) s.utxo) hbound
  rw [hil] at hil2
  have hst : s2.utxo = insertAll tx tx.outputs 0
      (tx.inputs.foldl (fun st input => st.remove input.outpoint) s.utxo) := by
    injection hil2
  have hfresh2 : ∀ j, 0 ≤ j → j < 0 + tx.outputs.length →
      (tx.inputs.foldl (fun st input => st.remove input.outpoint) s.utxo).containsKey
        (txOutputKey tx j) = false := by
    intro j h1 h2
    unfold Store.containsKey
    rw [get_foldl_remove]
    split
    · rfl
    · rw [Store.get_eq_none_of_not_contains s.utxo _ (hfresh j h1 h2)]
      rfl
  have hsize2 : s2.utxo.size =
      (tx.inputs.foldl (fun st input => st.remove input.outpoint) s.utxo).size
        + tx.outputs.length := by
    rw [hst]
    exact size_insertAll tx tx.outputs 0 _ hfresh2
  have hrem := foldl_remove_eq_filter tx.inputs s.utxo
  have hpart := s.utxo.length_eq_length_filter_add
    fun p => tx.inputs.any fun i => i.outpoint = p.1
  unfold Store.size at hsize2 ⊢
  unfold presentCount
  rw [hsize2, hrem]
  omega

/-- C5 counterexample: `c4tx` validates against `c4store` (its second input's
outpoint is absent and is skipped), but applying it removes only one entry
while the claim predicts a removal per input: the entry count does not change
by `len(outputs) - len(inputs)`. -/
theorem store_size_change_counterexample :
    validate_transaction vTrue c4store c4tx = .ok 50 ∧
    (update_storage { utxo := c4store, rewardTotal := 0 } c4tx 50).map
        (fun s2 => s2.utxo.size + c4tx.inputs.length) ≠
      .ok (c4store.size + c4tx.outputs.length) := by
  decide

/-- C6: replaying an already-applied transaction against the post-state fails
exactly at the output-collision check: its derived output keys now exist, all
its input outpoints are gone (so the input loop silently skips them without a
signature check), and the first output's recomputed key — identical to the one
`update_storage` inserted — is found in the store. -/
theorem replay_rejected_output_collision (verify verify2 : SigVerify) (s : State)
    (tx : Transaction) (reward : Nat) (s2 : State)
    (hok : validate_transaction verify s.utxo tx = .ok reward)
    (happ : update_storage s tx reward = .ok s2) :
    validate_transaction verify2 s2.utxo tx = .error "output already exists" := by
  obtain ⟨hin, hout, hd1, hd2, tin, tout, hl1, hl2, hge, hfee⟩ :=
    validate_ok_inv verify s.utxo tx reward hok
  obtain ⟨hvals, hfresh, hbound⟩ := totalOutputLoop_ok_facts s.utxo tx tx.outputs 0 0 tout hl2
  obtain ⟨hrb, hrt, hil⟩ := update_storage_ok_inv s tx reward s2 happ
  have hil2 := insertLoop_eq_ok tx tx.outputs 0
    (tx.inputs.foldl (fun st input => st.remove input.outpoint) s.utxo) hbound
  rw [hil] at hil2
  have hst : s2.utxo = insertAll tx tx.outputs 0
      (tx.inputs.foldl (fun st input => st.remove input.outpoint) s.utxo) := by
    injection hil2
  have hmiss : ∀ i ∈ tx.inputs, s2.utxo.get i.outpoint = none := by
    intro i hi
    rw [hst]
    rw [get_insertAll_of_ne tx tx.outputs 0 _ i.outpoint
      fun j _ _ => outpoint_ne_txOutputKey tx i hi j]
    rw [get_foldl_remove]
    rw [if_pos (show (tx.inputs.any fun x => x.outpoint = i.outpoint) = true by
      simp only [List.any_eq_true]
      exact ⟨i, hi, by simp⟩)]
  have hloop1b := totalInputLoop_all_missing verify2 s2.utxo (get_simple_tx tx)
    tx.inputs 0 hmiss
  obtain ⟨o, rest, hto⟩ : ∃ o rest, tx.outputs = o :: rest := by
    cases hcase : tx.outputs with
    | nil => exact absurd hcase hout
    | cons o rest => exact ⟨o, rest, rfl⟩
  have hcoll : s2.utxo.containsKey (txOutputKey tx 0) = true := by
    rw [hst]
    exact containsKey_insertAll tx tx.outputs 0 _ 0 (le_refl _) (by rw [hto]; simp)
  have houtloop : totalOutputLoop s2.utxo tx tx.outputs 0 0 = .error "output already exists" := by
    rw [hto]
    unfold totalOutputLoop
    rw [if_pos (hvals o (by rw [hto]; simp))]
    have hstep : checkedAdd64 0 1 = some 1 := by decide
    simp [hstep, hcoll]
  unfold validate_transaction
  rw [if_neg (by simp [List.isEmpty_iff, hin]), if_neg (by simp [List.isEmpty_iff, hout]),
    if_neg (not_not_intro hd1), if_neg (not_not_intro hd2)]
  simp only [hloop1b, houtloop]

/-- C6 witness: the concrete replay rejection. -/
theorem replay_rejected_output_collision_witness :
    validate_transaction vTrue c6state2.utxo c4tx = .error "output already exists" :=
  replay_rejected_output_collision vTrue vTrue { utxo := c4store, rewardTotal := 0 }
    c4tx 50 c6state2 (by decide) (by decide)

/-- C10 amended: starting from a genesis whose seeded outputs all have nonzero
value, along any sequence of spends and finalizations in which every reward
dispersal happens with a nonzero accumulated reward, every stored output has
positive value. (Dispersing with a zero accumulator inserts a zero-value
output, which the counterexample exhibits.) -/
theorem reachable_store_values_positive (verify : SigVerify) (s0 : State)
    (h : ReachableNZ verify s0) : ∀ k v, s0.utxo.get k = some v → 0 < v.value := by
  induction h with
  | genesis l hpos =>
    intro k v hget
    unfold genesisState genesisStore at hget
    rcases get_genesis_fold_inv l [] k v hget with h2 | h2
    · simp [Store.get] at h2
    · exact hpos v h2
  | @spend_step s s2 tx ev hre hsp ih =>
    intro k v hget
    obtain ⟨reward, hval, hupd⟩ := spend_ok_inv _ _ _ _ _ hsp
    obtain ⟨hin, hout, hd1, hd2, tin, tout, hl1, hl2, hge, hfee⟩ :=
      validate_ok_inv _ _ _ _ hval
    obtain ⟨hvals, hfresh, hbound⟩ := totalOutputLoop_ok_facts _ _ _ _ _ _ hl2
    obtain ⟨hrb, hrt, hil⟩ := update_storage_ok_inv _ _ _ _ hupd
    have hil2 := insertLoop_eq_ok tx tx.outputs 0
      (tx.inputs.foldl (fun st input => st.remove input.outpoint) s.utxo) hbound
    rw [hil] at hil2
    have hst : s2.utxo = insertAll tx tx.outputs 0
        (tx.inputs.foldl (fun st input => st.remove input.outpoint) s.utxo) := by
      injection hil2
    rw [hst] at hget
    rcases get_insertAll_inv _ _ _ _ _ _ hget with h2 | h2
    · rw [get_foldl_remove] at h2
      split at h2
      · simp at h2
      · exact ih k v h2
    · exact hvals v h2
  | @finalize_none s s2 block ev hre hfin ih =>
    intro k v hget
    unfold on_finalize at hfin
    injection hfin with h1 h2
    rw [← h1] at hget
    exact ih k v hget
  | @finalize_author s s2 author block ev hre hpos hfin ih =>
    intro k v hget
    unfold on_finalize disperse_reward at hfin
    dsimp only at hfin
    injection hfin with h1 h2
    rw [← h1] at hget
    by_cases hk : k = H256.hashOutputBlock s.rewardTotal author block
    · subst hk
      rw [Store.get_insert_self] at hget
      injection hget with h3
      rw [← h3]
      exact hpos
    · rw [Store.get_insert_ne _ _ _ _ hk] at hget
      exact ih k v hget

/-- C10 witness: the invariant evaluated on a concrete genesis store. -/
theorem reachable_store_values_positive_witness :
    0 < ({ value := 1, pubkey := H256.raw 0 } : TransactionOutput).value :=
  reachable_store_values_positive vTrue (genesisState [{ value := 1, pubkey := .raw 0 }])
    (ReachableNZ.genesis _ (by decide)) (H256.hashOutput 1 (.raw 0))
    { value := 1, pubkey := .raw 0 } (by decide)

/-- C10 counterexample: from a genesis whose only output has value 1,
finalizing one block with a resolvable author and no accumulated fees is a
reachable step that stores a zero-value reward output. -/
theorem zero_value_output_reachable :
    (∀ u ∈ ([{ value := 1, pubkey := H256.raw 0 }] : List TransactionOutput), 0 < u.value) ∧
    Reachable vTrue c10state ∧
    c10state.utxo.get (H256.hashOutputBlock 0 (.raw 1) 0) =
      some { value := 0, pubkey := .raw 1 } ∧
    ¬ 0 < ({ value := 0, pubkey := H256.raw 1 } : TransactionOutput).value := by
  refine ⟨by decide, ?_, by decide, by decide⟩
  exact Reachable.finalize_step (Reachable.genesis [{ value := 1, pubkey := .raw 0 }])
    (show on_finalize (genesisState [{ value := 1, pubkey := .raw 0 }]) (some (.raw 1)) 0 =
      (c10state, Event.RewardsIssued 0 (H256.hashOutputBlock 0 (.raw 1) 0)) by decide)

/-- C5 witness: the amended size equation evaluated on the concrete
fixture. -/
theorem apply_store_size_change_witness :
    c6state2.utxo.size + presentCount c4store c4tx = c4store.size + c4tx.outputs.length :=
  apply_store_size_change vTrue { utxo := c4store, rewardTotal := 0 } c4tx 50 c6state2
    (by decide) (by decide)
